import Mathlib

/-!
Shallow embedding of the sinkzone local DNS interception proxy.

The embedding covers the DNS request pipeline: the allowlist matcher
(exact domains plus compiled wildcard patterns), the focus-mode state
with lazy expiration, the upstream forwarder with ordered failover, the
bounded query ledger, and the HTTP focus-mode handlers of the inspection
API.  Go strings are modelled as Lean `String`/`List Char`, Unix times
and durations as `Int`, and the two fallible effects that matter here —
a per-upstream DNS exchange and duration parsing — as explicit
`Option`-valued oracles.  A Go runtime panic (out-of-bounds slice index)
is modelled by returning `none` from the handler.
-/

namespace Sinkzone

/-- `getDNSSerial` from the DNS server: the current Unix time clamped to
the 31-bit unsigned range.  The Go code takes the time from the system
clock; here it is an explicit argument. -/
def getDNSSerial (unixTime : Int) : Nat :=
  if unixTime < 0 then 0
  else if unixTime > 0x7FFFFFFF then 0x7FFFFFFF
  else unixTime.toNat

/-- `strings.TrimSuffix(name, ".")`: drop one trailing dot if present. -/
def trimTrailingDot (s : String) : String :=
  if s.data.getLast? = some '.' then ⟨s.data.dropLast⟩ else s

/-- A DNS message, reduced to the fields the handler inspects: the list
of question names and the response code. -/
structure Msg where
  question : List String
  rcode : Nat
  deriving DecidableEq, Repr

/-- The authority SOA record synthesized for a blocked response, with
the fields the handler sets. -/
structure SOA where
  name : String
  ttl : Nat
  refresh : Nat
  retry : Nat
  expire : Nat
  minttl : Nat
  serial : Nat
  deriving DecidableEq, Repr

/-- `dns.RcodeServerFailure`. -/
def rcodeServerFailure : Nat := 2

/-- `dns.RcodeNameError` (NXDOMAIN). -/
def rcodeNameError : Nat := 3

/-- The per-attempt timeout of the forwarder's DNS client, in seconds
(`Timeout: 5 * time.Second`). -/
def forwardTimeoutSeconds : Nat := 5

/-- `Server.forward`: try each upstream address in list order and return
the first response obtained without a transport error; `none` when every
upstream fails.  `exch u` models `client.Exchange(r, u)` for the request
being forwarded. -/
def forward (upstreams : List String) (exch : String → Option Msg) : Option Msg :=
  match upstreams with
  | [] => none
  | u :: rest =>
    match exch u with
    | some resp => some resp
    | none => forward rest exch

/-! ### Wildcard patterns and their compiled matchers

`wildcardToRegex` in the Go source builds `"^" + strings.ReplaceAll(regexp.QuoteMeta(p), "\\*", ".*") + "$"`
and compiles it with `regexp.Compile`.  We embed the produced pattern
string literally and give an executable matcher for the class of
patterns this pipeline can produce: the body is a sequence of literal
characters (possibly escaped) and `.*` gaps, anchored on both sides, so
a `regexp.MatchString` search succeeds exactly when the whole input is
matched; `.*` matches any run of non-newline characters (Go's `.` does
not match a newline by default).  Compilation of such a pattern never
fails, so the skip-on-compile-error branch of the loader is never taken. -/

/-- The characters `regexp.QuoteMeta` escapes (Go's `specialBytes`). -/
def isSpecial (c : Char) : Bool :=
  c = '\\' || c = '.' || c = '+' || c = '*' || c = '?' || c = '(' || c = ')' ||
  c = '|' || c = '[' || c = ']' || c = '\x7b' || c = '\x7d' || c = '^' || c = '$'

/-- `regexp.QuoteMeta`: escape every regex metacharacter (including `*`). -/
def quoteMeta : List Char → List Char
  | [] => []
  | c :: rest => if isSpecial c then '\\' :: c :: quoteMeta rest else c :: quoteMeta rest

/-- `strings.ReplaceAll(s, "\\*", ".*")`: leftmost-first, non-overlapping
replacement of the two-character sequence backslash-star by dot-star. -/
def replaceEscStar : List Char → List Char
  | [] => []
  | [c] => [c]
  | a :: b :: rest =>
    if a = '\\' && b = '*' then '.' :: '*' :: replaceEscStar rest
    else a :: replaceEscStar (b :: rest)

/-- `wildcardToRegex`: the anchored regex pattern string the source
compiles for a wildcard allowlist entry. -/
def wildcardToRegex (p : List Char) : List Char :=
  '^' :: replaceEscStar (quoteMeta p) ++ ['$']

/-- A token of the compiled pattern body: a literal character or a
`.*` gap. -/
inductive RTok where
  | lit (c : Char)
  | star
  deriving DecidableEq, Repr

/-- Tokenize a pattern body: `\c` is the literal `c`, `.*` is a gap,
any other character stands for itself.  (In every body produced by
`wildcardToRegex` or by the spec's translation, `.` occurs only escaped
or immediately followed by `*`, so this tokenizer is exact there.) -/
def lexBody : List Char → List RTok
  | [] => []
  | '\\' :: c :: rest => .lit c :: lexBody rest
  | '.' :: '*' :: rest => .star :: lexBody rest
  | c :: rest => .lit c :: lexBody rest

/-- Match a token sequence against an input: a literal consumes exactly
its character, a gap consumes any run of non-newline characters. -/
def toksMatch : List RTok → List Char → Bool
  | [], d => d.isEmpty
  | .lit c :: ts, d =>
    match d with
    | [] => false
    | x :: xs => x = c && toksMatch ts xs
  | .star :: ts, d =>
    (List.range (d.length + 1)).any fun i =>
      (d.take i).all (fun c => c != '\n') && toksMatch ts (d.drop i)

/-- `regexp.MatchString` for an anchored pattern `^body$`: strip the
anchors and match the body against the whole input. -/
def matchString (rx : List Char) (d : List Char) : Bool :=
  toksMatch (lexBody ((rx.drop 1).dropLast)) d

/-- Modelled from the spec: "escape all regex metacharacters except `*`,
then replace each `*` with `.*`" — the spec's description of the
wildcard-to-regex translation, used to compare against the source's
QuoteMeta-then-ReplaceAll pipeline. -/
def specEscapeBody : List Char → List Char
  | [] => []
  | c :: rest =>
    if c = '*' then '.' :: '*' :: specEscapeBody rest
    else if isSpecial c then '\\' :: c :: specEscapeBody rest
    else c :: specEscapeBody rest

/-- Modelled from the spec: the anchored regular expression obtained
from a wildcard pattern by the spec's translation. -/
def specWildcardRegex (p : String) : List Char :=
  '^' :: specEscapeBody p.data ++ ['$']

/-- Whether a domain is matched by the spec's anchored-regex translation
of a wildcard pattern. -/
def specWildcardMatches (p d : String) : Bool :=
  matchString (specWildcardRegex p) d.data

/-! ### Allowlist state and matching -/

/-- The allowlist state of the DNS server: the exact-domain set (a Go
`map[string]bool`, modelled as the list of keys) and the compiled
wildcard patterns in load order. -/
structure AllowState where
  allowlist : List String
  wildcardPatterns : List (List Char)
  deriving DecidableEq, Repr

/-- `isWildcardPattern`: a pattern is a wildcard iff it contains `*`. -/
def isWildcardPattern (p : String) : Bool :=
  p.data.contains '*'

/-- The wildcard loop of `isAllowed`: try each compiled pattern in load
order, first match wins. -/
def wildcardLoop : List (List Char) → String → Bool
  | [], _ => false
  | rx :: rest, d => if matchString rx d.data then true else wildcardLoop rest d

/-- `Server.isAllowed`: exact-set membership first; otherwise scan the
compiled wildcard patterns in order. -/
def isAllowed (st : AllowState) (domain : String) : Bool :=
  if st.allowlist.contains domain then true
  else wildcardLoop st.wildcardPatterns domain

/-- `unicode.IsSpace` (the White_Space code points), as used by
`strings.TrimSpace`. -/
def isGoSpace (c : Char) : Bool :=
  (9 ≤ c.toNat && c.toNat ≤ 13) || c.toNat = 32 || c.toNat = 0x85 || c.toNat = 0xA0 ||
  c.toNat = 0x1680 || (0x2000 ≤ c.toNat && c.toNat ≤ 0x200A) ||
  c.toNat = 0x2028 || c.toNat = 0x2029 || c.toNat = 0x202F || c.toNat = 0x205F ||
  c.toNat = 0x3000

/-- `strings.TrimSpace`: drop leading and trailing white space. -/
def goTrimSpace (s : String) : String :=
  ⟨((s.data.dropWhile isGoSpace).reverse.dropWhile isGoSpace).reverse⟩

/-- `strings.HasPrefix(line, "#")`: does the line start with `#`. -/
def startsWithHash (s : String) : Bool :=
  match s.data with
  | '#' :: _ => true
  | _ => false

/-- One iteration of `loadAllowlist`'s scanner loop: trim the line, skip
blank and `#`-prefixed lines, compile `*`-bearing lines into the
wildcard list, store the rest in the exact set.  (Compilation of the
produced patterns never fails, so the warn-and-skip branch is dead.) -/
def loadAllowlistLine (st : AllowState) (line : String) : AllowState :=
  let pattern := goTrimSpace line
  if pattern != "" && !(startsWithHash pattern) then
    if isWildcardPattern pattern then
      { st with wildcardPatterns := st.wildcardPatterns ++ [wildcardToRegex pattern.data] }
    else
      { st with allowlist := st.allowlist ++ [pattern] }
  else st

/-- `loadAllowlist` on the given file lines: the state is rebuilt from
empty (`s.allowlist = make(map[string]bool)`, `s.wildcardPatterns = nil`). -/
def loadAllowlistLines (lines : List String) : AllowState :=
  lines.foldl loadAllowlistLine ⟨[], []⟩

/-! ### Query ledger -/

/-- `api.DNSQuery`: one recorded query. -/
structure DNSQuery where
  domain : String
  client : String
  timestamp : Int
  blocked : Bool
  deriving DecidableEq, Repr

/-- Comparison used by `AddQuery`'s `sort.Slice` (ascending timestamp). -/
def tsLe (a b : DNSQuery) : Prop := a.timestamp ≤ b.timestamp

instance : DecidableRel tsLe :=
  fun a b => inferInstanceAs (Decidable (a.timestamp ≤ b.timestamp))

instance : IsTotal DNSQuery tsLe :=
  ⟨fun a b => Int.le_total a.timestamp b.timestamp⟩

instance : IsTrans DNSQuery tsLe :=
  ⟨fun _ _ _ hab hbc => le_trans hab hbc⟩

/-- `s.queryMap[query.Domain] = query`: insert-or-overwrite by domain
key.  The Go map is modelled as a list of entries with distinct domains. -/
def upsertQuery (m : List DNSQuery) (q : DNSQuery) : List DNSQuery :=
  if m.any (fun e => e.domain == q.domain) then
    m.map (fun e => if e.domain == q.domain then q else e)
  else m ++ [q]

/-- The eviction step of `AddQuery`: sort all entries by timestamp
ascending and delete the oldest `len - 100` domains from the map. -/
def evictOldest (M : List DNSQuery) : List DNSQuery :=
  let sorted := List.insertionSort tsLe M
  let toRemove := sorted.take (M.length - 100)
  M.filter (fun e => !(toRemove.any (fun o => o.domain == e.domain)))

/-- `api.Server.AddQuery`: upsert by domain; if the map then holds more
than 100 entries, evict the oldest-by-timestamp excess entries.  (Go map
iteration order is arbitrary; after sorting it is immaterial whenever
the timestamps are distinct, which is the hypothesis under which the
eviction order is specified.) -/
def addQuery (m : List DNSQuery) (q : DNSQuery) : List DNSQuery :=
  let m1 := upsertQuery m q
  if 100 < m1.length then evictOldest m1 else m1

/-! ### DNS server state and request handler -/

/-- The DNS server's mutable state: allowlist and focus mode.  (Its
query ledger lives in the API server and is threaded separately.) -/
structure DnsState where
  allow : AllowState
  focusMode : Bool
  focusEndTime : Option Int
  deriving DecidableEq, Repr

/-- The expiration test of `handleRequest`:
`focusMode && focusEndTime != nil && time.Now().After(*focusEndTime)`. -/
def focusExpired (st : DnsState) (now : Int) : Bool :=
  match st.focusEndTime with
  | some t => st.focusMode && decide (t < now)
  | none => false

/-- The queried name: first question name with one trailing dot
trimmed; the empty string when the question section is empty. -/
def extractDomain (r : Msg) : String :=
  match r.question with
  | [] => ""
  | q :: _ => trimTrailingDot q

/-- The focus-mode flag the handler works with after the lazy
expiration check. -/
def focusModeAfterExpiry (st : DnsState) (now : Int) : Bool :=
  if focusExpired st now then false else st.focusMode

/-- The handler's block decision:
`blocked = focusMode && !s.isAllowed(domain)`. -/
def handlerBlocked (st : DnsState) (r : Msg) (now : Int) : Bool :=
  focusModeAfterExpiry st now && !(isAllowed st.allow (extractDomain r))

/-- What the handler writes back: a locally synthesized message (block
or SERVFAIL) or an upstream response passed through unchanged. -/
inductive RespMsg where
  | synth (rcode : Nat) (authority : List SOA)
  | upstream (m : Msg)
  deriving DecidableEq, Repr

/-- Result of one `handleRequest` run: the updated DNS-server state, the
updated query ledger, the response written, and the query passed to the
forwarder (`none` when the forwarder was not called). -/
structure HandlerOut where
  dns : DnsState
  ledger : List DNSQuery
  resp : RespMsg
  forwardedQuery : Option Msg
  deriving DecidableEq, Repr

/-- The synthetic negative-caching SOA attached to a blocked response:
all five timing fields are the literal 300, the serial comes from
`getDNSSerial`. -/
def mkBlockSOA (name : String) (now : Int) : SOA :=
  { name := name, ttl := 300, refresh := 300, retry := 300, expire := 300,
    minttl := 300, serial := getDNSSerial now }

/-- `Server.handleRequest`, for a server with the API server attached
(the deployed configuration, so the recording branch is live).  `exch r u`
models `client.Exchange(r, u)`; all `time.Now()` reads within the one
run are modelled by the single instant `now`.  A return of `none`
models the Go runtime panic from indexing `r.Question[0]` when the
question section is empty. -/
def handleRequest (st : DnsState) (led : List DNSQuery) (r : Msg) (now : Int)
    (client : String) (upstreams : List String) (exch : Msg → String → Option Msg) :
    Option HandlerOut :=
  let domain := extractDomain r
  let focusMode := focusModeAfterExpiry st now
  let st1 := if focusExpired st now then { st with focusMode := false, focusEndTime := none } else st
  let led1 :=
    if domain != "" then
      addQuery led { domain := domain, client := client, timestamp := now,
                     blocked := focusMode && !(isAllowed st.allow domain) }
    else led
  if focusMode && !(isAllowed st.allow domain) then
    match r.question with
    | [] => none
    | q :: _ =>
      some { dns := st1, ledger := led1,
             resp := .synth rcodeNameError [mkBlockSOA q now],
             forwardedQuery := none }
  else
    match forward upstreams (exch r) with
    | some resp =>
      some { dns := st1, ledger := led1, resp := .upstream resp, forwardedQuery := some r }
    | none =>
      some { dns := st1, ledger := led1, resp := .synth rcodeServerFailure [],
             forwardedQuery := some r }

/-! ### Inspection API -/

/-- The API server's state: its query map and its own copy of the
focus-mode flags (synchronized with the DNS server only through the
set-focus callback). -/
structure ApiState where
  queryMap : List DNSQuery
  focusMode : Bool
  focusEndTime : Option Int
  deriving DecidableEq, Repr

/-- `api.Server.GetFocusMode`: return the stored flag and end time. -/
def GetFocusMode (st : ApiState) : Bool × Option Int :=
  (st.focusMode, st.focusEndTime)

/-- The JSON body written by `handleGetFocusMode`. -/
structure FocusModeStateResp where
  enabled : Bool
  endTime : Option Int
  deriving DecidableEq, Repr

/-- `api.Server.handleGetFocusMode`: encode the stored state as-is. -/
def handleGetFocusMode (st : ApiState) : FocusModeStateResp :=
  { enabled := st.focusMode, endTime := st.focusEndTime }

/-- `dns.Server.setFocusMode` (the DNS-side callback of the API server):
set the focus flags, and reload the allowlist from the file when
enabling.  It always returns nil, so the callback never fails. -/
def setFocusMode (st : DnsState) (enabled : Bool) (duration : Int) (now : Int)
    (fileLines : List String) : DnsState :=
  let st1 := { st with
    focusMode := enabled,
    focusEndTime := if enabled && decide (0 < duration) then some (now + duration) else none }
  if enabled then { st1 with allow := loadAllowlistLines fileLines } else st1

/-- The decoded body of a `POST /api/focus` request. -/
structure SetFocusReq where
  enabled : Bool
  duration : String
  deriving DecidableEq, Repr

/-- HTTP 200. -/
def statusOK : Nat := 200

/-- HTTP 400. -/
def statusBadRequest : Nat := 400

/-- Result of `handleSetFocusMode`: both servers' states, the HTTP
status written, and whether the DNS-side callback was invoked. -/
structure SetFocusOut where
  api : ApiState
  dns : DnsState
  status : Nat
  callbackInvoked : Bool
  deriving DecidableEq, Repr

/-- `api.Server.handleSetFocusMode` after a successful JSON decode, with
the callback attached (the deployed configuration).  `parseDur` models
`time.ParseDuration`; the duration is parsed only when the request
enables focus mode with a non-empty duration string, defaulting to 0
otherwise. -/
def handleSetFocusMode (parseDur : String → Option Int) (api : ApiState) (dns : DnsState)
    (req : SetFocusReq) (now : Int) (fileLines : List String) : SetFocusOut :=
  let parsed : Option Int :=
    if req.enabled && (req.duration != "") then parseDur req.duration else some 0
  match parsed with
  | none => { api := api, dns := dns, status := statusBadRequest, callbackInvoked := false }
  | some d =>
    let api1 := { api with
      focusMode := req.enabled,
      focusEndTime := if req.enabled && decide (0 < d) then some (now + d) else none }
    { api := api1, dns := setFocusMode dns req.enabled d now fileLines,
      status := statusOK, callbackInvoked := true }

/-! ## Theorems -/

/-- C9: `getDNSSerial` clamps the Unix time to the 31-bit unsigned
range: 0 for negative times, `0x7FFFFFFF` above the range, the time
itself otherwise; the result always lies in `[0, 2^31 - 1]` (and so in
particular fits a `uint32` without overflow). -/
theorem getDNSSerial_clamps (t : Int) :
    (t < 0 → getDNSSerial t = 0) ∧
    (t > 0x7FFFFFFF → getDNSSerial t = 0x7FFFFFFF) ∧
    (0 ≤ t → t ≤ 0x7FFFFFFF → getDNSSerial t = t.toNat) ∧
    getDNSSerial t ≤ 2 ^ 31 - 1 := by
  unfold getDNSSerial
  refine ⟨fun h => by simp [h], fun h => ?_, fun h1 h2 => ?_, ?_⟩
  · have h0 : ¬ t < 0 := by omega
    simp [h0, h]
  · have h0 : ¬ t < 0 := by omega
    have h3 : ¬ t > 0x7FFFFFFF := by omega
    simp [h0, h3]
  · split
    · omega
    · split
      · omega
      · rename_i h0 h3
        omega

/-- Witness for C9 at concrete times. -/
theorem getDNSSerial_clamps_witness :
    getDNSSerial (-5) = 0 ∧
    getDNSSerial 3000000000 = 0x7FFFFFFF ∧
    getDNSSerial 1700000000 = 1700000000 ∧
    getDNSSerial 1700000000 ≤ 2 ^ 31 - 1 := by
  refine ⟨(getDNSSerial_clamps (-5)).1 (by decide),
          (getDNSSerial_clamps 3000000000).2.1 (by decide), ?_,
          (getDNSSerial_clamps 1700000000).2.2.2⟩
  exact ((getDNSSerial_clamps 1700000000).2.2.1 (by decide) (by decide)).trans (by decide)

/-- The wildcard loop of `isAllowed` returns true iff some compiled
pattern in the list matches. -/
theorem wildcardLoop_eq_any (pats : List (List Char)) (d : String) :
    wildcardLoop pats d = pats.any (fun rx => matchString rx d.data) := by
  induction pats with
  | nil => rfl
  | cons rx rest ih =>
    by_cases h : matchString rx d.data = true
    · simp [wildcardLoop, h]
    · simp only [Bool.not_eq_true] at h
      simp [wildcardLoop, h, ih]

/-- C4: `isAllowed` returns true iff the domain is in the exact set or,
failing that, some compiled wildcard matcher (scanned in load order,
first match wins) matches it; otherwise it returns false. -/
theorem isAllowed_iff (st : AllowState) (d : String) :
    isAllowed st d = true ↔
      d ∈ st.allowlist ∨
        (d ∉ st.allowlist ∧ ∃ rx ∈ st.wildcardPatterns, matchString rx d.data = true) := by
  by_cases hmem : d ∈ st.allowlist
  · have hc : st.allowlist.contains d = true := by
      simpa [List.contains] using List.elem_iff.mpr hmem
    simp [isAllowed, hc, hmem]
  · have hc : st.allowlist.contains d = false := by
      by_contra h
      exact hmem (List.elem_iff.mp (by simpa [List.contains] using h))
    simp [isAllowed, hc, hmem, wildcardLoop_eq_any, List.any_eq_true]

/-- C6: the forwarder fails iff every upstream fails; it returns the
response of the first upstream (in list order) that answers without a
transport error; the handler maps total forwarding failure to a
SERVFAIL reply; and the per-attempt timeout constant is 5 seconds. -/
theorem forward_failover :
    (∀ (ups : List String) (exch : String → Option Msg),
      forward ups exch = none ↔ ∀ u ∈ ups, exch u = none) ∧
    (∀ (ups : List String) (exch : String → Option Msg) (m : Msg),
      forward ups exch = some m ↔
        ∃ pre u post, ups = pre ++ u :: post ∧ (∀ v ∈ pre, exch v = none) ∧
          exch u = some m) ∧
    (∀ (st : DnsState) (led : List DNSQuery) (r : Msg) (now : Int) (client : String)
      (ups : List String) (exch : Msg → String → Option Msg),
      (∀ u ∈ ups, exch r u = none) →
      handlerBlocked st r now = false →
      ∃ out, handleRequest st led r now client ups exch = some out ∧
        out.resp = .synth rcodeServerFailure []) ∧
    forwardTimeoutSeconds = 5 := by
  have hnone : ∀ (ups : List String) (exch : String → Option Msg),
      forward ups exch = none ↔ ∀ u ∈ ups, exch u = none := by
    intro ups exch
    induction ups with
    | nil => simp [forward]
    | cons u rest ih =>
      cases h : exch u with
      | none => simp [forward, h, ih]
      | some m => simp [forward, h]
  refine ⟨hnone, ?_, ?_, rfl⟩
  · intro ups exch m
    induction ups with
    | nil => simp [forward]
    | cons u rest ih =>
      cases h : exch u with
      | none =>
        simp only [forward, h]
        constructor
        · intro hf
          obtain ⟨pre, v, post, hsplit, hpre, hv⟩ := ih.mp hf
          exact ⟨u :: pre, v, post, by simp [hsplit], by
            intro w hw
            rcases List.mem_cons.mp hw with rfl | hw
            · exact h
            · exact hpre w hw, hv⟩
        · rintro ⟨pre, v, post, hsplit, hpre, hv⟩
          cases pre with
          | nil =>
            simp at hsplit
            rcases hsplit with ⟨rfl, -⟩
            rw [hv] at h
            exact absurd h (by simp)
          | cons p ps =>
            simp at hsplit
            rcases hsplit with ⟨rfl, hrest⟩
            exact ih.mpr ⟨ps, v, post, hrest, fun w hw => hpre w (List.mem_cons_of_mem _ hw), hv⟩
      | some m0 =>
        simp only [forward, h]
        constructor
        · intro hm
          refine ⟨[], u, rest, by simp, by simp, ?_⟩
          rw [h, hm]
        · rintro ⟨pre, v, post, hsplit, hpre, hv⟩
          cases pre with
          | nil =>
            simp at hsplit
            rcases hsplit with ⟨rfl, -⟩
            rw [hv] at h
            simpa using h.symm
          | cons p ps =>
            simp at hsplit
            rcases hsplit with ⟨rfl, -⟩
            have := hpre u (by simp)
            rw [this] at h
            exact absurd h (by simp)
  · intro st led r now client ups exch hfail hnb
    have hfwd : forward ups (exch r) = none := (hnone ups (exch r)).mpr hfail
    unfold handleRequest
    unfold handlerBlocked at hnb
    simp only [hnb, Bool.false_eq_true, if_false, hfwd]
    exact ⟨_, rfl, rfl⟩

/-- Witness for C6 at a concrete two-upstream configuration where both
upstreams fail. -/
theorem forward_failover_witness :
    forward ["1.1.1.1:53", "8.8.8.8:53"] (fun _ => none) = none ∧
    (∃ out, handleRequest ⟨⟨[], []⟩, false, none⟩ [] ⟨["a.com."], 0⟩ 7 "cli"
        ["1.1.1.1:53", "8.8.8.8:53"] (fun _ _ => none) = some out ∧
        out.resp = .synth rcodeServerFailure []) := by
  refine ⟨(forward_failover.1 _ _).mpr (by intro u hu; rfl), ?_⟩
  exact forward_failover.2.2.1 ⟨⟨[], []⟩, false, none⟩ [] ⟨["a.com."], 0⟩ 7 "cli"
    ["1.1.1.1:53", "8.8.8.8:53"] (fun _ _ => none) (by intro u hu; rfl) (by decide)

/-- Replacement leaves a leading character other than a backslash in
place. -/
theorem replaceEscStar_cons_ne (c : Char) (l : List Char) (hc : c ≠ '\\') :
    replaceEscStar (c :: l) = c :: replaceEscStar l := by
  cases l with
  | nil => simp [replaceEscStar]
  | cons b rest => simp [replaceEscStar, hc]

/-- Replacement leaves an escape in place when the escaped character is
not a star. -/
theorem replaceEscStar_esc (b : Char) (l : List Char) (hb : b ≠ '*') :
    replaceEscStar ('\\' :: b :: l) = '\\' :: replaceEscStar (b :: l) := by
  simp [replaceEscStar, hb]

/-- The output of `quoteMeta` never starts with a bare star. -/
theorem quoteMeta_ne_star_cons (cs : List Char) (t : List Char) :
    quoteMeta cs ≠ '*' :: t := by
  cases cs with
  | nil => simp [quoteMeta]
  | cons c rest =>
    by_cases hs : isSpecial c = true
    · have hq : quoteMeta (c :: rest) = '\\' :: c :: quoteMeta rest := by
        simp [quoteMeta, hs]
      rw [hq]
      intro h
      injection h with h1 _
      exact absurd h1 (by decide)
    · have hsf : isSpecial c = false := by simpa using hs
      have hq : quoteMeta (c :: rest) = c :: quoteMeta rest := by
        simp [quoteMeta, hsf]
      rw [hq]
      intro h
      injection h with h1 _
      rw [h1] at hsf
      exact absurd hsf (by decide)

/-- A backslash prepended to a `quoteMeta` output is kept verbatim by
the replacement (the output never starts with a star). -/
theorem replaceEscStar_bslash_quoteMeta (cs : List Char) :
    replaceEscStar ('\\' :: quoteMeta cs) = '\\' :: replaceEscStar (quoteMeta cs) := by
  cases h : quoteMeta cs with
  | nil => simp [replaceEscStar]
  | cons b t =>
    have hb : b ≠ '*' := by
      intro hb
      rw [hb] at h
      exact quoteMeta_ne_star_cons cs t h
    exact replaceEscStar_esc b t hb

/-- Core refinement for C2: escaping everything with `QuoteMeta` and
then replacing each `\*` by `.*` equals the spec's per-character
translation (escape every metacharacter except `*`, map `*` to `.*`). -/
theorem replaceEscStar_quoteMeta (cs : List Char) :
    replaceEscStar (quoteMeta cs) = specEscapeBody cs := by
  induction cs with
  | nil => rfl
  | cons c rest ih =>
    by_cases hstar : c = '*'
    · subst hstar
      have hq : quoteMeta ('*' :: rest) = '\\' :: '*' :: quoteMeta rest := by
        simp [quoteMeta, (by decide : isSpecial '*' = true)]
      rw [hq]
      simp [replaceEscStar, specEscapeBody, ih]
    · by_cases hs : isSpecial c = true
      · have hq : quoteMeta (c :: rest) = '\\' :: c :: quoteMeta rest := by
          simp [quoteMeta, hs]
        rw [hq, replaceEscStar_esc c _ hstar]
        by_cases hb : c = '\\'
        · subst hb
          rw [replaceEscStar_bslash_quoteMeta, ih]
          simp [specEscapeBody, (by decide : isSpecial '\\' = true)]
        · rw [replaceEscStar_cons_ne c _ hb, ih]
          simp [specEscapeBody, hstar, hs]
      · have hsf : isSpecial c = false := by simpa using hs
        have hq : quoteMeta (c :: rest) = c :: quoteMeta rest := by
          simp [quoteMeta, hsf]
        have hb : c ≠ '\\' := by
          intro h
          rw [h] at hsf
          exact absurd hsf (by decide)
        rw [hq, replaceEscStar_cons_ne c _ hb, ih]
        simp [specEscapeBody, hstar, hsf]

/-- The compiled pattern of a wildcard entry is exactly the spec's
anchored translation. -/
theorem wildcardToRegex_eq_spec (p : String) :
    wildcardToRegex p.data = specWildcardRegex p := by
  unfold wildcardToRegex specWildcardRegex
  rw [replaceEscStar_quoteMeta]

/-- C2: for a wildcard pattern `p` (a trimmed, non-comment line
containing `*`), `isAllowed` under the single-entry allowlist `[p]`
holds exactly when the spec's anchored-regex translation of `p` matches
the domain. -/
theorem isAllowed_single_wildcard_eq_spec (p d : String)
    (htrim : goTrimSpace p = p) (hne : p ≠ "")
    (hcomment : startsWithHash p = false)
    (hwild : isWildcardPattern p = true) :
    isAllowed (loadAllowlistLines [p]) d = specWildcardMatches p d := by
  have hstate : loadAllowlistLines [p] = ⟨[], [wildcardToRegex p.data]⟩ := by
    show loadAllowlistLine ⟨[], []⟩ p = _
    unfold loadAllowlistLine
    rw [htrim]
    simp [hne, hcomment, hwild]
  rw [hstate]
  unfold isAllowed wildcardLoop
  rw [wildcardToRegex_eq_spec]
  simp [specWildcardMatches, wildcardLoop]

/-- Witness for C2 at the claim's concrete pattern/domain pairs. -/
theorem isAllowed_single_wildcard_eq_spec_witness :
    isAllowed (loadAllowlistLines ["*.example.com"]) "sub.example.com" = true ∧
    isAllowed (loadAllowlistLines ["*.example.com"]) "api.sub.example.com" = true ∧
    isAllowed (loadAllowlistLines ["*.example.com"]) "example.com" = false ∧
    isAllowed (loadAllowlistLines ["api.*.com"]) "api.github.com" = true ∧
    isAllowed (loadAllowlistLines ["api.*.com"]) "api.github.org" = false :=
  ⟨(isAllowed_single_wildcard_eq_spec "*.example.com" "sub.example.com"
      (by decide) (by decide) (by decide) (by decide)).trans (by decide),
   (isAllowed_single_wildcard_eq_spec "*.example.com" "api.sub.example.com"
      (by decide) (by decide) (by decide) (by decide)).trans (by decide),
   (isAllowed_single_wildcard_eq_spec "*.example.com" "example.com"
      (by decide) (by decide) (by decide) (by decide)).trans (by decide),
   (isAllowed_single_wildcard_eq_spec "api.*.com" "api.github.com"
      (by decide) (by decide) (by decide) (by decide)).trans (by decide),
   (isAllowed_single_wildcard_eq_spec "api.*.com" "api.github.org"
      (by decide) (by decide) (by decide) (by decide)).trans (by decide)⟩

/-- C1: for a request with a non-empty question section, the handler
blocks iff `focusMode && !isAllowed(domain)` holds after the lazy
expiration check; a blocked request is answered with NAME-ERROR and
exactly one authority SOA whose TTL, Refresh, Retry, Expire and Minttl
are all 300, without invoking the forwarder; a non-blocked request is
forwarded upstream as the original query. -/
theorem handleRequest_block_or_forward (st : DnsState) (led : List DNSQuery) (r : Msg)
    (now : Int) (client : String) (ups : List String) (exch : Msg → String → Option Msg)
    (q : String) (rest : List String) (hq : r.question = q :: rest) :
    ∃ out, handleRequest st led r now client ups exch = some out ∧
      (handlerBlocked st r now = true →
        out.resp = .synth rcodeNameError
          [{ name := q, ttl := 300, refresh := 300, retry := 300, expire := 300,
             minttl := 300, serial := getDNSSerial now }] ∧
        out.forwardedQuery = none) ∧
      (handlerBlocked st r now = false →
        out.forwardedQuery = some r ∧
        ((∃ m, forward ups (exch r) = some m ∧ out.resp = .upstream m) ∨
          (forward ups (exch r) = none ∧ out.resp = .synth rcodeServerFailure []))) := by
  by_cases hb : handlerBlocked st r now = true
  · have hb' : (focusModeAfterExpiry st now && !(isAllowed st.allow (extractDomain r))) = true :=
      hb
    simp only [handleRequest, hq, hb', if_true]
    refine ⟨_, rfl, ?_, ?_⟩
    · intro _
      exact ⟨rfl, rfl⟩
    · intro hf
      rw [hb] at hf
      exact absurd hf (by decide)
  · have hbf : handlerBlocked st r now = false := by simpa using hb
    have hb' : (focusModeAfterExpiry st now && !(isAllowed st.allow (extractDomain r))) = false :=
      hbf
    simp only [handleRequest, hq, hb', Bool.false_eq_true, if_false]
    cases hfwd : forward ups (exch r) with
    | some m =>
      refine ⟨_, rfl, ?_, ?_⟩
      · intro ht
        exact absurd (hbf.symm.trans ht) (by decide)
      · intro _
        exact ⟨rfl, Or.inl ⟨m, rfl, rfl⟩⟩
    | none =>
      refine ⟨_, rfl, ?_, ?_⟩
      · intro ht
        exact absurd (hbf.symm.trans ht) (by decide)
      · intro _
        exact ⟨rfl, Or.inr ⟨rfl, rfl⟩⟩

/-- Witness for C1: focus mode on, empty allowlist, query `evil.com.` —
blocked with the 300-TTL SOA; the forwarder is never consulted. -/
theorem handleRequest_block_or_forward_witness :
    ∃ out, handleRequest ⟨⟨[], []⟩, true, none⟩ [] ⟨["evil.com."], 0⟩ 1000 "cli" ["u"]
        (fun _ _ => none) = some out ∧
      (handlerBlocked ⟨⟨[], []⟩, true, none⟩ ⟨["evil.com."], 0⟩ 1000 = true →
        out.resp = .synth rcodeNameError
          [{ name := "evil.com.", ttl := 300, refresh := 300, retry := 300, expire := 300,
             minttl := 300, serial := getDNSSerial 1000 }] ∧
        out.forwardedQuery = none) ∧
      (handlerBlocked ⟨⟨[], []⟩, true, none⟩ ⟨["evil.com."], 0⟩ 1000 = false →
        out.forwardedQuery = some ⟨["evil.com."], 0⟩ ∧
        ((∃ m, forward ["u"] (fun _ => none) = some m ∧ out.resp = .upstream m) ∨
          (forward ["u"] (fun _ => none) = none ∧
            out.resp = .synth rcodeServerFailure []))) :=
  handleRequest_block_or_forward ⟨⟨[], []⟩, true, none⟩ [] ⟨["evil.com."], 0⟩ 1000 "cli" ["u"]
    (fun _ _ => none) "evil.com." [] rfl

/-- C10 counterexample: a message with an empty question section,
handled while focus mode is on and the (empty) allowlist does not admit
the empty domain, reaches the unguarded `r.Question[0]` index in the
SOA-synthesis branch — the out-of-bounds access, modelled as `none`. -/
theorem handleRequest_empty_question_oob :
    handleRequest ⟨⟨[], []⟩, true, none⟩ [] ⟨[], 0⟩ 0 "cli" [] (fun _ _ => none) = none := by
  rfl

/-- C10 amended: for every message whose question section is non-empty
the handler completes without out-of-bounds indexing (the
domain-extraction step does guard its index; only the SOA branch's
index is unguarded, and it is reachable only with an empty question). -/
theorem handleRequest_total_of_question_ne_nil (st : DnsState) (led : List DNSQuery)
    (r : Msg) (now : Int) (client : String) (ups : List String)
    (exch : Msg → String → Option Msg) (hq : r.question ≠ []) :
    (handleRequest st led r now client ups exch).isSome = true := by
  cases hrq : r.question with
  | nil => exact absurd hrq hq
  | cons q rest =>
    by_cases hb : (focusModeAfterExpiry st now && !(isAllowed st.allow (extractDomain r))) = true
    · simp only [handleRequest, hrq, hb, if_true, Option.isSome_some]
    · have hb' : (focusModeAfterExpiry st now && !(isAllowed st.allow (extractDomain r))) = false := by
        simpa using hb
      simp only [handleRequest, hrq, hb', Bool.false_eq_true, if_false]
      cases hfwd : forward ups (exch r) <;> simp [hfwd]

/-- Witness for the amended C10 at a concrete request. -/
theorem handleRequest_total_of_question_ne_nil_witness :
    (handleRequest ⟨⟨[], []⟩, false, none⟩ [] ⟨["a."], 0⟩ 0 "c" [] (fun _ _ => none)).isSome =
      true :=
  handleRequest_total_of_question_ne_nil ⟨⟨[], []⟩, false, none⟩ [] ⟨["a."], 0⟩ 0 "c" []
    (fun _ _ => none) (by decide)

/-- C7 counterexample: a request with an empty question section (so the
extracted domain is empty) is handled — focus off, so no panic — but no
ledger record is added: the ledger stays `[]`. -/
theorem handleRequest_empty_question_skips_record :
    handleRequest ⟨⟨[], []⟩, false, none⟩ [] ⟨[], 0⟩ 5 "cli" [] (fun _ _ => none) =
      some ⟨⟨⟨[], []⟩, false, none⟩, [], .synth rcodeServerFailure [], some ⟨[], 0⟩⟩ := by
  rfl

/-- C7 amended: whenever the extracted domain is non-empty, the handler
records `{domain, client, now, blocked}` into the ledger — regardless of
whether focus mode is on or off. -/
theorem handleRequest_records_nonempty_domain (st : DnsState) (led : List DNSQuery)
    (r : Msg) (now : Int) (client : String) (ups : List String)
    (exch : Msg → String → Option Msg) (hd : extractDomain r ≠ "") :
    ∃ out, handleRequest st led r now client ups exch = some out ∧
      out.ledger = addQuery led
        { domain := extractDomain r, client := client, timestamp := now,
          blocked := focusModeAfterExpiry st now && !(isAllowed st.allow (extractDomain r)) } := by
  have hq : r.question ≠ [] := by
    intro h
    exact hd (by simp [extractDomain, h])
  have hdb : (extractDomain r != "") = true := by simpa using hd
  cases hrq : r.question with
  | nil => exact absurd hrq hq
  | cons q rest =>
    by_cases hb : (focusModeAfterExpiry st now && !(isAllowed st.allow (extractDomain r))) = true
    · simp only [handleRequest, hrq, hb, if_true, hdb]
      exact ⟨_, rfl, rfl⟩
    · have hb' : (focusModeAfterExpiry st now && !(isAllowed st.allow (extractDomain r))) = false := by
        simpa using hb
      simp only [handleRequest, hrq, hb', Bool.false_eq_true, if_false, hdb]
      cases hfwd : forward ups (exch r) with
      | some m => simp only [hfwd]; exact ⟨_, rfl, rfl⟩
      | none => simp only [hfwd]; exact ⟨_, rfl, rfl⟩

/-- Witness for the amended C7 at a concrete request with focus off. -/
theorem handleRequest_records_nonempty_domain_witness :
    ∃ out, handleRequest ⟨⟨[], []⟩, false, none⟩ [] ⟨["a.com."], 0⟩ 9 "cli" []
        (fun _ _ => none) = some out ∧
      out.ledger = addQuery []
        { domain := extractDomain ⟨["a.com."], 0⟩, client := "cli", timestamp := 9,
          blocked := focusModeAfterExpiry ⟨⟨[], []⟩, false, none⟩ 9 &&
            !(isAllowed ⟨[], []⟩ (extractDomain ⟨["a.com."], 0⟩)) } :=
  handleRequest_records_nonempty_domain ⟨⟨[], []⟩, false, none⟩ [] ⟨["a.com."], 0⟩ 9 "cli" []
    (fun _ _ => none) (by decide)

/-- C3 counterexample: at `now = 1` the deadline `0` has passed, yet
both API status reads report the focus mode as still enabled and
perform no state transition (they are pure reads of the stored state —
the API read path has no expiration check at all). -/
theorem focus_api_read_ignores_expiry :
    GetFocusMode ⟨[], true, some 0⟩ = (true, some 0) ∧
    handleGetFocusMode ⟨[], true, some 0⟩ = ⟨true, some 0⟩ ∧
    (0 : Int) < 1 :=
  ⟨rfl, rfl, by decide⟩

/-- C3 amended: the lazy expiration transition happens on the DNS
request path — an expired enabled state is atomically reset to disabled
and the request is treated as not blocked (forwarded) — while the API
status reads (`GetFocusMode`, `handleGetFocusMode`) return the stored
enabled flag and deadline unchanged, with no expiration check. -/
theorem focus_lazy_expiry_dns_read_only :
    (∀ (st : DnsState) (led : List DNSQuery) (r : Msg) (now : Int) (client : String)
      (ups : List String) (exch : Msg → String → Option Msg) (T : Int),
      st.focusMode = true → st.focusEndTime = some T → T < now →
      ∃ out, handleRequest st led r now client ups exch = some out ∧
        out.dns = ⟨st.allow, false, none⟩ ∧ out.forwardedQuery = some r) ∧
    (∀ ast : ApiState,
      GetFocusMode ast = (ast.focusMode, ast.focusEndTime) ∧
      handleGetFocusMode ast = ⟨ast.focusMode, ast.focusEndTime⟩) := by
  constructor
  · intro st led r now client ups exch T hmode hend hT
    have hexp : focusExpired st now = true := by
      simp [focusExpired, hend, hmode, hT]
    have hfm : focusModeAfterExpiry st now = false := by
      simp [focusModeAfterExpiry, hexp]
    have hb' : (focusModeAfterExpiry st now && !(isAllowed st.allow (extractDomain r))) = false := by
      simp [hfm]
    simp only [handleRequest, hb', Bool.false_eq_true, if_false, hexp, if_true]
    cases hfwd : forward ups (exch r) with
    | some m => simp only [hfwd]; exact ⟨_, rfl, rfl, rfl⟩
    | none => simp only [hfwd]; exact ⟨_, rfl, rfl, rfl⟩
  · intro ast
    exact ⟨rfl, rfl⟩

/-- Witness for the amended C3: expired state on the DNS path is reset
and forwarded; a concrete API state is read back verbatim. -/
theorem focus_lazy_expiry_dns_read_only_witness :
    (∃ out, handleRequest ⟨⟨[], []⟩, true, some 0⟩ [] ⟨["a."], 0⟩ 1 "c" []
        (fun _ _ => none) = some out ∧
      out.dns = ⟨⟨[], []⟩, false, none⟩ ∧ out.forwardedQuery = some ⟨["a."], 0⟩) ∧
    GetFocusMode ⟨[], true, some 0⟩ = ((⟨[], true, some 0⟩ : ApiState).focusMode,
      (⟨[], true, some 0⟩ : ApiState).focusEndTime) :=
  ⟨focus_lazy_expiry_dns_read_only.1 ⟨⟨[], []⟩, true, some 0⟩ [] ⟨["a."], 0⟩ 1 "c" []
      (fun _ _ => none) 0 rfl rfl (by decide),
   (focus_lazy_expiry_dns_read_only.2 ⟨[], true, some 0⟩).1⟩

/-- C8 counterexample: a `POST /api/focus` body with `enabled = false`
and the unparseable duration string `"bogus"` (the oracle models
`time.ParseDuration` failing on it) is accepted with status 200, both
focus states are mutated, and the DNS-side callback is invoked — the
duration is validated only when enabling with a non-empty duration. -/
theorem handleSetFocusMode_disable_skips_validation :
    handleSetFocusMode (fun _ => none) ⟨[], true, some 99⟩ ⟨⟨[], []⟩, true, some 99⟩
        ⟨false, "bogus"⟩ 5 [] =
      ⟨⟨[], false, none⟩, ⟨⟨[], []⟩, false, none⟩, statusOK, true⟩ := by
  rfl

/-- C8 amended: a request that enables focus mode with a non-empty
duration string that fails to parse is rejected with status 400, with
no mutation of either state and without invoking the DNS-side callback;
every other request (disabling, empty duration, or a parseable
duration) succeeds with status 200 and invokes the callback. -/
theorem handleSetFocusMode_bad_duration (parseDur : String → Option Int)
    (api : ApiState) (dns : DnsState) (req : SetFocusReq) (now : Int)
    (fileLines : List String) :
    (req.enabled = true → req.duration ≠ "" → parseDur req.duration = none →
      handleSetFocusMode parseDur api dns req now fileLines =
        ⟨api, dns, statusBadRequest, false⟩) ∧
    ((req.enabled = false ∨ req.duration = "" ∨ ∃ dur, parseDur req.duration = some dur) →
      (handleSetFocusMode parseDur api dns req now fileLines).status = statusOK ∧
      (handleSetFocusMode parseDur api dns req now fileLines).callbackInvoked = true) := by
  constructor
  · intro hen hdur hparse
    have hdb : (req.duration != "") = true := by simpa using hdur
    simp [handleSetFocusMode, hen, hdb, hparse]
  · intro hcase
    by_cases hc : (req.enabled && (req.duration != "")) = true
    · rcases hcase with hen | hdur | ⟨dur, hparse⟩
      · rw [hen] at hc
        simp at hc
      · rw [hdur] at hc
        simp at hc
      · simp [handleSetFocusMode, hc, hparse]
    · have hc' : (req.enabled && (req.duration != "")) = false := by simpa using hc
      simp [handleSetFocusMode, hc']

/-- Witness for the amended C8: a malformed enabling request gets 400
and no mutation; a parseable one gets 200 with the callback invoked. -/
theorem handleSetFocusMode_bad_duration_witness :
    handleSetFocusMode (fun _ => none) ⟨[], false, none⟩ ⟨⟨[], []⟩, false, none⟩
        ⟨true, "xyz"⟩ 5 [] = ⟨⟨[], false, none⟩, ⟨⟨[], []⟩, false, none⟩,
          statusBadRequest, false⟩ ∧
    (handleSetFocusMode (fun _ => some 3600) ⟨[], false, none⟩ ⟨⟨[], []⟩, false, none⟩
        ⟨true, "1h"⟩ 5 []).status = statusOK :=
  ⟨(handleSetFocusMode_bad_duration (fun _ => none) ⟨[], false, none⟩ ⟨⟨[], []⟩, false, none⟩
      ⟨true, "xyz"⟩ 5 []).1 rfl (by decide) rfl,
   ((handleSetFocusMode_bad_duration (fun _ => some 3600) ⟨[], false, none⟩
      ⟨⟨[], []⟩, false, none⟩ ⟨true, "1h"⟩ 5 []).2 (Or.inr (Or.inr ⟨3600, rfl⟩))).1⟩

/-- Upserting a domain that is already present leaves the domain column
of the map unchanged. -/
theorem upsert_map_domain_of_mem (m : List DNSQuery) (q : DNSQuery)
    (h : m.any (fun e => e.domain == q.domain) = true) :
    (upsertQuery m q).map DNSQuery.domain = m.map DNSQuery.domain := by
  unfold upsertQuery
  rw [if_pos h, List.map_map]
  apply List.map_congr_left
  intro e he
  simp only [Function.comp_apply]
  by_cases hd : (e.domain == q.domain) = true
  · rw [if_pos hd]
    exact (beq_iff_eq.mp hd).symm
  · rw [if_neg hd]

/-- Every entry of the upserted map is the new record or an old record
with a different domain. -/
theorem mem_upsert (m : List DNSQuery) (q : DNSQuery) (e : DNSQuery)
    (he : e ∈ upsertQuery m q) :
    e = q ∨ (e ∈ m ∧ e.domain ≠ q.domain) := by
  unfold upsertQuery at he
  by_cases h : (m.any (fun e => e.domain == q.domain)) = true
  · rw [if_pos h] at he
    obtain ⟨e0, he0, hfe⟩ := List.mem_map.mp he
    by_cases hd : (e0.domain == q.domain) = true
    · rw [if_pos hd] at hfe
      exact Or.inl hfe.symm
    · rw [if_neg hd] at hfe
      cases hfe
      exact Or.inr ⟨he0, fun hcon => hd (beq_iff_eq.mpr hcon)⟩
  · rw [if_neg h] at he
    rcases List.mem_append.mp he with hm | hq
    · refine Or.inr ⟨hm, ?_⟩
      have hall : ∀ x ∈ m, ¬x.domain = q.domain := by simpa using h
      exact hall e hm
    · exact Or.inl (by simpa using hq)

/-- Upserting preserves distinctness of the domain keys. -/
theorem upsert_keys_nodup (m : List DNSQuery) (q : DNSQuery)
    (hkeys : (m.map DNSQuery.domain).Nodup) :
    ((upsertQuery m q).map DNSQuery.domain).Nodup := by
  by_cases h : (m.any (fun e => e.domain == q.domain)) = true
  · rw [upsert_map_domain_of_mem m q h]
    exact hkeys
  · unfold upsertQuery
    rw [if_neg h, List.map_append, List.nodup_append]
    refine ⟨hkeys, List.nodup_singleton _, ?_⟩
    intro a ha hb
    simp only [List.map_cons, List.map_nil, List.mem_singleton] at hb
    obtain ⟨e0, he0, hde⟩ := List.mem_map.mp ha
    have hall : ∀ x ∈ m, ¬x.domain = q.domain := by simpa using h
    exact hall e0 he0 (hde.trans hb)

/-- The eviction step on a map with more than 100 entries and distinct
domains and timestamps: exactly the oldest `len - 100` entries go, the
rest stay, so the size returns to 100 and every evicted entry is
strictly older than every kept one. -/
theorem evictOldest_spec (M : List DNSQuery)
    (hkeys : (M.map DNSQuery.domain).Nodup)
    (hts : (M.map DNSQuery.timestamp).Nodup)
    (hlen : 100 < M.length) :
    (evictOldest M).length = 100 ∧
    (∀ e ∈ evictOldest M, e ∈ M) ∧
    (∀ e ∈ M, e ∉ evictOldest M → ∀ e2 ∈ evictOldest M,
      e.timestamp < e2.timestamp) := by
  have hperm : List.Perm (List.insertionSort tsLe M) M := List.perm_insertionSort tsLe M
  have hsort : List.Sorted tsLe (List.insertionSort tsLe M) :=
    List.sorted_insertionSort tsLe M
  set S := List.insertionSort tsLe M with hS
  set k := M.length - 100 with hk
  set R := S.take k with hR
  have hres : evictOldest M =
      M.filter (fun e => !(R.any (fun o => o.domain == e.domain))) := rfl
  have hMnodup : M.Nodup := List.Nodup.of_map _ hts
  have hSnodup : S.Nodup := (hperm.nodup_iff).mpr hMnodup
  have hSkeys : (S.map DNSQuery.domain).Nodup := ((hperm.map _).nodup_iff).mpr hkeys
  have hdisj : R.Disjoint (S.drop k) := by
    have hn := hSnodup
    rw [← List.take_append_drop k S] at hn
    exact List.disjoint_of_nodup_append hn
  have hinjS : ∀ ⦃x⦄, x ∈ S → ∀ ⦃y⦄, y ∈ S → x.domain = y.domain → x = y :=
    List.inj_on_of_nodup_map hSkeys
  have hinjTs : ∀ ⦃x⦄, x ∈ M → ∀ ⦃y⦄, y ∈ M → x.timestamp = y.timestamp → x = y :=
    List.inj_on_of_nodup_map hts
  have hpredR : ∀ e ∈ R, (!(R.any (fun o => o.domain == e.domain))) = false := by
    intro e he
    have hany : R.any (fun o => o.domain == e.domain) = true :=
      List.any_eq_true.mpr ⟨e, he, by simp⟩
    rw [hany]
    rfl
  have hpredD : ∀ e ∈ S.drop k, (!(R.any (fun o => o.domain == e.domain))) = true := by
    intro e he
    simp only [Bool.not_eq_true']
    rw [List.any_eq_false]
    intro o ho hbeq
    have hdom : o.domain = e.domain := beq_iff_eq.mp hbeq
    have hoS : o ∈ S := List.mem_of_mem_take ho
    have heS : e ∈ S := List.mem_of_mem_drop he
    have hoe : o = e := hinjS hoS heS hdom
    subst hoe
    exact hdisj ho he
  have hfS : S.filter (fun e => !(R.any (fun o => o.domain == e.domain))) = S.drop k := by
    conv_lhs => rw [← List.take_append_drop k S]
    rw [List.filter_append, List.filter_eq_nil_iff.mpr (fun a ha => by rw [hpredR a ha]; simp),
      List.filter_eq_self.mpr hpredD, List.nil_append]
  have hpermF : List.Perm (evictOldest M) (S.drop k) := by
    rw [hres, ← hfS]
    exact (hperm.symm).filter _
  have hlenS : S.length = M.length := hperm.length_eq
  refine ⟨?_, ?_, ?_⟩
  · rw [hpermF.length_eq, List.length_drop, hlenS]
    omega
  · intro e he
    rw [hres] at he
    exact (List.mem_filter.mp he).1
  · intro e heM henot e2 he2
    have he2M : e2 ∈ M ∧ (!(R.any (fun o => o.domain == e2.domain))) = true := by
      rw [hres] at he2
      exact List.mem_filter.mp he2
    have hpredE : (!(R.any (fun o => o.domain == e.domain))) = false := by
      by_contra hcon
      have hcon' : (!(R.any (fun o => o.domain == e.domain))) = true := by
        simpa using hcon
      exact henot (by rw [hres]; exact List.mem_filter.mpr ⟨heM, hcon'⟩)
    have heR : e ∈ R := by
      have hany : R.any (fun o => o.domain == e.domain) = true := by
        simpa using hpredE
      obtain ⟨o, ho, hbeq⟩ := List.any_eq_true.mp hany
      have hdom : o.domain = e.domain := beq_iff_eq.mp hbeq
      have hoS : o ∈ S := List.mem_of_mem_take ho
      have heS : e ∈ S := (hperm.mem_iff).mpr heM
      have hoe : o = e := hinjS hoS heS hdom
      exact hoe ▸ ho
    have he2D : e2 ∈ S.drop k := by
      have he2S : e2 ∈ S := (hperm.mem_iff).mpr he2M.1
      rcases List.mem_append.mp (by rw [List.take_append_drop k S]; exact he2S) with hin | hin
      · exact absurd he2M.2 (by rw [hpredR e2 hin]; simp)
      · exact hin
    have hsort' : List.Pairwise tsLe (S.take k ++ S.drop k) := by
      rw [List.take_append_drop k S]
      exact hsort
    have hle : tsLe e e2 := (List.pairwise_append.mp hsort').2.2 e heR e2 he2D
    have hne : e ≠ e2 := fun hcon => hdisj (hcon ▸ heR) he2D
    have htsne : e.timestamp ≠ e2.timestamp := fun hcon =>
      hne (hinjTs heM he2M.1 hcon)
    exact lt_of_le_of_ne hle htsne

/-- C5: after `AddQuery` on a ledger with distinct domains (and, for the
eviction order to be well-defined, distinct timestamps after the
upsert), the ledger holds at most 100 entries with at most one entry per
domain; the recorded domain's entry, when kept, is exactly the fresh
record (timestamp and blocked flag refreshed, not appended); when the
upsert pushes the count above 100, the size returns to exactly 100 and
every evicted entry is strictly older than every kept one. -/
theorem addQuery_bounded_lru (m : List DNSQuery) (q : DNSQuery)
    (hkeys : (m.map DNSQuery.domain).Nodup)
    (hts : ((upsertQuery m q).map DNSQuery.timestamp).Nodup) :
    (addQuery m q).length ≤ 100 ∧
    ((addQuery m q).map DNSQuery.domain).Nodup ∧
    (∀ e ∈ addQuery m q, e = q ∨ (e ∈ m ∧ e.domain ≠ q.domain)) ∧
    (100 < (upsertQuery m q).length → (addQuery m q).length = 100) ∧
    (∀ e ∈ upsertQuery m q, e ∉ addQuery m q →
      ∀ e2 ∈ addQuery m q, e.timestamp < e2.timestamp) := by
  have hkeys1 : ((upsertQuery m q).map DNSQuery.domain).Nodup := upsert_keys_nodup m q hkeys
  by_cases hlen : 100 < (upsertQuery m q).length
  · have hres : addQuery m q = evictOldest (upsertQuery m q) := by
      simp only [addQuery, hlen, if_true]
    obtain ⟨hlen100, hsub, hstrict⟩ := evictOldest_spec (upsertQuery m q) hkeys1 hts hlen
    refine ⟨?_, ?_, ?_, ?_, ?_⟩
    · rw [hres, hlen100]
    · rw [hres]
      have hsl : (evictOldest (upsertQuery m q)).Sublist (upsertQuery m q) :=
        List.filter_sublist _
      exact List.Nodup.sublist (hsl.map _) hkeys1
    · intro e he
      exact mem_upsert m q e (hsub e (hres ▸ he))
    · intro _
      rw [hres, hlen100]
    · intro e heM henot e2 he2
      exact hstrict e heM (fun hc => henot (hres ▸ hc)) e2 (hres ▸ he2)
  · have hres : addQuery m q = upsertQuery m q := by
      simp only [addQuery, hlen, if_false]
    refine ⟨?_, ?_, ?_, ?_, ?_⟩
    · rw [hres]
      omega
    · rw [hres]
      exact hkeys1
    · intro e he
      exact mem_upsert m q e (hres ▸ he)
    · intro hcon
      exact absurd hcon hlen
    · intro e heM henot
      exact absurd (hres ▸ heM) henot

/-- Witness for C5 at a concrete two-entry ledger. -/
theorem addQuery_bounded_lru_witness :
    (addQuery [⟨"a.com", "c", 1, false⟩] ⟨"b.com", "c", 2, true⟩).length ≤ 100 ∧
    ((addQuery [⟨"a.com", "c", 1, false⟩] ⟨"b.com", "c", 2, true⟩).map
      DNSQuery.domain).Nodup ∧
    (∀ e ∈ addQuery [⟨"a.com", "c", 1, false⟩] ⟨"b.com", "c", 2, true⟩,
      e = ⟨"b.com", "c", 2, true⟩ ∨
        (e ∈ [(⟨"a.com", "c", 1, false⟩ : DNSQuery)] ∧ e.domain ≠ "b.com")) ∧
    (100 < (upsertQuery [⟨"a.com", "c", 1, false⟩] ⟨"b.com", "c", 2, true⟩).length →
      (addQuery [⟨"a.com", "c", 1, false⟩] ⟨"b.com", "c", 2, true⟩).length = 100) ∧
    (∀ e ∈ upsertQuery [⟨"a.com", "c", 1, false⟩] ⟨"b.com", "c", 2, true⟩,
      e ∉ addQuery [⟨"a.com", "c", 1, false⟩] ⟨"b.com", "c", 2, true⟩ →
      ∀ e2 ∈ addQuery [⟨"a.com", "c", 1, false⟩] ⟨"b.com", "c", 2, true⟩,
        e.timestamp < e2.timestamp) :=
  addQuery_bounded_lru [⟨"a.com", "c", 1, false⟩] ⟨"b.com", "c", 2, true⟩
    (by decide) (by decide)

end Sinkzone
